import Mathlib

/-!
# Texture viewer: the raw-pixel decoding engine

A shallow embedding of `struct TextureData` of `src/texture_viewer/texture_viewer.cpp`
(the layout accessors, `get_pixel` and `update`) together with the small part of the
C++ standard library and of SFML that these two member functions call.

Conventions of the embedding.

* A C++ `int` is an `Int`.  Signed overflow is undefined behaviour in C++ and is not
  part of the model: arithmetic on `int` is arithmetic in `ℤ`.
* A `uint8_t` / `sf::Uint8` is a `Nat`; where the source stores the value of an `int`
  expression into an `sf::Uint8` the model reduces it modulo `256`.
* A member function that may throw (`std::length_error` from a container size obtained
  from a negative `int`) or that may touch memory outside a buffer returns an `Option`;
  `none` stands for "the call does not complete normally".
* The file named by `file_path` is passed to `update` as `Option (List Nat)`:
  `none` when the file cannot be opened, `some bytes` with its contents otherwise.
-/

namespace TextureViewer

/-! ## Data model -/

/-- The enumeration `Endianness` of the source. -/
inductive Endianness where
  | TV_LITTLE_ENDIAN
  | TV_BIG_ENDIAN
  deriving DecidableEq, Repr

/-- The four channels of an `sf::Color`. -/
structure Color where
  r : Nat
  g : Nat
  b : Nat
  a : Nat
  deriving DecidableEq, Repr

/-- The colour built by the default constructor `sf::Color()`: opaque black. -/
def Color.black : Color := ⟨0, 0, 0, 255⟩

/-- The predefined colour `sf::Color::Magenta`. -/
def Color.Magenta : Color := ⟨255, 0, 255, 255⟩

/-- An `sf::Image`: its size and its pixels in row-major order. -/
structure Image where
  size_x : Nat
  size_y : Nat
  pixels : List Color
  deriving DecidableEq, Repr

/-- The image built by the default constructor `sf::Image()`: no pixel. -/
def Image.empty : Image := ⟨0, 0, []⟩

/-- The call `sf::Image::create(width, height, color)`: a `width × height` image filled
with `color`, or the empty image when one of the two dimensions is zero. -/
def Image.create (width height : Nat) (color : Color) : Image :=
  if width ≠ 0 ∧ height ≠ 0 then
    ⟨width, height, List.replicate (width * height) color⟩
  else
    ⟨0, 0, []⟩

/-- The call `sf::Image::setPixel(x, y, color)`: it writes the pixel stored at index
`x + y * size_x` and checks nothing; a write outside the pixel buffer is `none`. -/
def Image.setPixel (img : Image) (x y : Nat) (color : Color) : Option Image :=
  if x + y * img.size_x < img.pixels.length then
    some { img with pixels := img.pixels.set (x + y * img.size_x) color }
  else
    none

/-- The call `sf::Image::getPixel(x, y)`: the pixel stored at index `x + y * size_x`. -/
def Image.getPixel (img : Image) (x y : Nat) : Option Color :=
  img.pixels[x + y * img.size_x]?

/-- The conversion of an `int` to `unsigned int`: the identity on a non-negative value,
a negative value wraps around by `2^32`. -/
def toUnsigned (n : Int) : Nat :=
  if 0 ≤ n then n.toNat else (n + 4294967296).toNat

/-- The fields of `struct TextureData` that `get_pixel` and `update` use.  The member
`file_path` is represented by the argument `file` of `update`, and `tex` (the GPU copy of
`image`) is left out. -/
structure TextureData where
  columns : Int
  lines : Int
  offset : Int
  bpp : Int
  line_byte_skip : Int
  pixel_byte_skip : Int
  endianness : Endianness
  image : Image
  data : List Nat
  deriving DecidableEq, Repr

/-- The state built by the default member initialisers of `struct TextureData`. -/
def TextureData.initial : TextureData :=
  { columns := 0, lines := 0, offset := 0, bpp := 0,
    line_byte_skip := 0, pixel_byte_skip := 0,
    endianness := Endianness.TV_LITTLE_ENDIAN,
    image := Image.empty, data := [] }

/-! ## Layout accessors -/

/-- The member `get_pixel_size`: `bpp + pixel_byte_skip`. -/
def TextureData.get_pixel_size (t : TextureData) : Int :=
  t.bpp + t.pixel_byte_skip

/-- The member `get_pixel_line_size`: `get_pixel_size() * columns`. -/
def TextureData.get_pixel_line_size (t : TextureData) : Int :=
  t.get_pixel_size * t.columns

/-- The member `get_line_size`: `get_pixel_line_size() + line_byte_skip`. -/
def TextureData.get_line_size (t : TextureData) : Int :=
  t.get_pixel_line_size + t.line_byte_skip

/-- The member `get_frame_size`: `get_line_size() * lines`. -/
def TextureData.get_frame_size (t : TextureData) : Int :=
  t.get_line_size * t.lines

/-! ## `get_pixel` -/

/-- The local array `uint8_t pixel_bytes[16] = {0}` of `get_pixel`. -/
def pixel_bytes_init : List Nat :=
  [0, 0, 0, 0, 0, 0, 0, 0, 0, 0, 0, 0, 0, 0, 0, 0]

/-- The byte reorder loop of `get_pixel`,
`for (int i = 0; i < bpp; ++i) pixel_bytes[LE ? bpp - 1 - i : i] = data[pixel_pos + i];`
with `n` the number of iterations still to run and `i` the loop variable.  A read
outside `data` or a write outside the 16 bytes of `pixel_bytes` is `none`. -/
def fill_pixel_bytes (t : TextureData) (pixel_pos : Int) :
    Nat → Int → List Nat → Option (List Nat)
  | 0, _, pixel_bytes => some pixel_bytes
  | n + 1, i, pixel_bytes =>
    let dst : Int :=
      if t.endianness = Endianness.TV_LITTLE_ENDIAN then t.bpp - 1 - i else i
    let src : Int := pixel_pos + i
    if 0 ≤ src ∧ src < t.data.length ∧ 0 ≤ dst ∧ dst < 16 then
      fill_pixel_bytes t pixel_pos n (i + 1)
        (pixel_bytes.set dst.toNat (t.data.getD src.toNat 0))
    else
      none

/-- The `switch (bpp)` of `get_pixel`, applied to the reordered bytes.  The result
starts as `sf::Color()`, which the `default` branch leaves untouched. -/
def decode_pixel_bytes (bpp : Int) (pixel_bytes : List Nat) : Color :=
  let b0 := pixel_bytes.getD 0 0
  let b1 := pixel_bytes.getD 1 0
  let b2 := pixel_bytes.getD 2 0
  let b3 := pixel_bytes.getD 3 0
  if bpp = 1 then
    ⟨b0, b0, b0, 255⟩
  else if bpp = 2 then
    let r := (((b0 &&& 0xF8) >>> 3) <<< 3) % 256
    let g := ((((b0 &&& 0x07) <<< 2) ||| ((b1 &&& 0xC0) >>> 6)) <<< 3) % 256
    let b := (((b1 &&& 0x3E) >>> 1) <<< 3) % 256
    if (b1 &&& 0x0) ≠ 0 then
      ⟨(r / 2) % 256, (g / 2) % 256, (b / 2) % 256, 255⟩
    else
      ⟨r, g, b, 255⟩
  else if bpp = 3 then
    ⟨b0, b1, b2, 255⟩
  else if bpp = 4 then
    ⟨b0, b1, b2, b3⟩
  else
    Color.black

/-- The member `get_pixel(x, y)`. -/
def TextureData.get_pixel (t : TextureData) (x y : Int) : Option Color :=
  let line_offset := y * t.get_pixel_line_size
  let pixel_offset := x * t.get_pixel_size
  let pixel_pos := line_offset + pixel_offset
  match fill_pixel_bytes t pixel_pos t.bpp.toNat 0 pixel_bytes_init with
  | none => none
  | some pixel_bytes => some (decode_pixel_bytes t.bpp pixel_bytes)

/-! ## The input stream -/

/-- The part of the state of a `std::ifstream` that `update` observes: the contents of
the file, the get position and the two state flags. -/
structure IfStream where
  bytes : List Nat
  pos : Nat
  eofbit : Bool
  failbit : Bool
  deriving DecidableEq, Repr

/-- A stream freshly opened on a file with the given contents. -/
def IfStream.open (bytes : List Nat) : IfStream :=
  ⟨bytes, 0, false, false⟩

/-- The call `f.seekg(offset)`: a negative position makes the seek fail and sets
`failbit`; any other position, also one past the end of the file, becomes the get
position. -/
def IfStream.seekg (f : IfStream) (offset : Int) : IfStream :=
  if f.failbit then f
  else if offset < 0 then { f with eofbit := false, failbit := true }
  else { f with pos := offset.toNat, eofbit := false }

/-- The call `f.read(buffer, count)`.  On a stream that is not `good()` nothing is
read and `failbit` is set.  Otherwise the bytes available from the get position, at most
`count`, overwrite the front of `buffer`; the rest of `buffer` keeps its contents; when
fewer than `count` bytes were available both `eofbit` and `failbit` are set. -/
def IfStream.read (f : IfStream) (buffer : List Nat) (count : Int) :
    IfStream × List Nat :=
  if f.eofbit ∨ f.failbit then
    ({ f with failbit := true }, buffer)
  else
    let got := (f.bytes.drop f.pos).take count.toNat
    let buffer' := got ++ buffer.drop got.length
    if got.length < count.toNat then
      ({ f with pos := f.pos + got.length, eofbit := true, failbit := true }, buffer')
    else
      ({ f with pos := f.pos + got.length }, buffer')

/-! ## `update` -/

/-- The call `data.resize(count)` with an `int` argument: a negative `count` converts to
a size above `max_size()` and throws; otherwise the vector is cut or extended with
zero bytes to `count` elements. -/
def vector_resize (data : List Nat) (count : Int) : Option (List Nat) :=
  if count < 0 then none
  else some (data.take count.toNat ++ List.replicate (count.toNat - data.length) 0)

/-- The construction `std::vector<uint8_t> line_buffer(count, value)` with an `int`
count: a negative `count` throws. -/
def vector_fill (count : Int) (value : Nat) : Option (List Nat) :=
  if count < 0 then none else some (List.replicate count.toNat value)

/-- The call `std::copy(line_buffer.begin(), line_buffer.begin() + count,
data.begin() + dst)`: `none` when the source range leaves `line_buffer` or the
destination range leaves `data`. -/
def copy_line (line_buffer : List Nat) (count : Int) (data : List Nat) (dst : Int) :
    Option (List Nat) :=
  if 0 ≤ count ∧ count ≤ line_buffer.length ∧ 0 ≤ dst ∧ dst + count ≤ data.length then
    some (data.take dst.toNat ++ line_buffer.take count.toNat
      ++ data.drop (dst.toNat + count.toNat))
  else
    none

/-- The row read loop of `update`,
`for (int y = 0; (y < lines) && (! f.eof()); ++y) { f.read(...); std::copy(...); }`
with `n` the number of rows still to visit and `y` the loop variable; the result is the
raw buffer `data` after the loop. -/
def read_lines (t : TextureData) :
    Nat → Int → IfStream → List Nat → List Nat → Option (List Nat)
  | 0, _, _, _, data => some data
  | n + 1, y, f, line_buffer, data =>
    if f.eofbit then some data
    else
      match copy_line (f.read line_buffer t.get_line_size).2 t.get_pixel_line_size
          data (y * t.get_pixel_line_size) with
      | none => none
      | some data' =>
        read_lines t n (y + 1) (f.read line_buffer t.get_line_size).1
          (f.read line_buffer t.get_line_size).2 data'

/-- The inner loop of the pixel assembly of `update`,
`for (int x = 0; x < columns; ++x) image.setPixel(x, y, get_pixel(x, y));`
with `n` the number of columns still to visit.  `get_pixel` reads the layout fields and
`data` of `t`, which the loop does not modify; the image is threaded through. -/
def set_row (t : TextureData) (y : Int) : Nat → Int → Image → Option Image
  | 0, _, img => some img
  | n + 1, x, img =>
    match t.get_pixel x y with
    | none => none
    | some c =>
      match img.setPixel (toUnsigned x) (toUnsigned y) c with
      | none => none
      | some img' => set_row t y n (x + 1) img'

/-- The outer loop of the pixel assembly of `update`, `for (int y = 0; y < lines; ++y)`,
with `n` the number of rows still to visit. -/
def set_rows (t : TextureData) : Nat → Int → Image → Option Image
  | 0, _, img => some img
  | n + 1, y, img =>
    match set_row t y t.columns.toNat 0 img with
    | none => none
    | some img' => set_rows t n (y + 1) img'

/-- The member `update()`.  `file` is what opening `file_path` gives: `none` when the
stream is not good or not open. -/
def TextureData.update (t : TextureData) (file : Option (List Nat)) :
    Option TextureData :=
  if t.bpp = 0 then some t
  else
    match file with
    | none => some t
    | some bytes =>
      match vector_resize t.data (t.lines * t.get_pixel_line_size) with
      | none => none
      | some data1 =>
        match vector_fill t.get_line_size 0x33 with
        | none => none
        | some line_buffer =>
          match read_lines t t.lines.toNat 0 ((IfStream.open bytes).seekg t.offset)
              line_buffer data1 with
          | none => none
          | some data2 =>
            let t2 : TextureData :=
              { t with
                data := data2
                image := Image.create (toUnsigned t.columns) (toUnsigned t.lines)
                  Color.Magenta }
            match set_rows t2 t.lines.toNat 0 t2.image with
            | none => none
            | some img => some { t2 with image := img }

/-! ## Definitions used in the statements -/

/-- The state with the given layout fields and the empty frame of the initial state. -/
def mkConfig (columns lines offset bpp line_byte_skip pixel_byte_skip : Int)
    (e : Endianness) : TextureData :=
  { TextureData.initial with
    columns := columns, lines := lines, offset := offset, bpp := bpp,
    line_byte_skip := line_byte_skip, pixel_byte_skip := pixel_byte_skip,
    endianness := e }

/-- The state `t` with another frame: raw buffer `data` and image `image`. -/
def TextureData.withFrame (t : TextureData) (data : List Nat) (image : Image) :
    TextureData :=
  { t with data := data, image := image }

/-- The raw buffer that `n` complete rows of the file give: from each row of `L` bytes,
starting at position `pos`, the first `P` bytes. -/
def file_rows (bytes : List Nat) (L P : Nat) : Nat → Nat → List Nat
  | _, 0 => []
  | pos, n + 1 => (bytes.drop pos).take P ++ file_rows bytes L P (pos + L) n

/-- The bytes of the pixel field at raw position `p`, in file order. -/
def field_at (data : List Nat) (p : Nat) (n : Nat) : List Nat :=
  (List.range n).map (fun i => data.getD (p + i) 0)

/-- The contents of `pixel_bytes` after the reorder loop. -/
def normalised (e : Endianness) (field : List Nat) : List Nat :=
  (if e = Endianness.TV_LITTLE_ENDIAN then field.reverse else field)
    ++ List.replicate (16 - field.length) 0

/-- The property "every byte of the raw buffer of `t'` whose source position
`offset + y * get_line_size + i` lies at or beyond the end of the file is the sentinel
`0x33`", for the rows `y` and the row bytes `i` of the layout of `t`. -/
def sentinel_beyond_eof (t : TextureData) (bytes : List Nat) (t' : TextureData) : Prop :=
  ∀ y, y < t.lines.toNat → ∀ i, i < t.get_pixel_line_size.toNat →
    (bytes.length : Int) ≤ t.offset + y * t.get_line_size + i →
    t'.data[y * t.get_pixel_line_size.toNat + i]? = some 0x33

instance (t : TextureData) (bytes : List Nat) (t' : TextureData) :
    Decidable (sentinel_beyond_eof t bytes t') := by
  unfold sentinel_beyond_eof
  infer_instance

/-! ## Auxiliary facts -/

theorem get_pixel_spec (t : TextureData) (x y : Int) (p : Nat)
    (hp : y * t.get_pixel_line_size + x * t.get_pixel_size = (p : Int))
    (hb : t.bpp = 1 ∨ t.bpp = 2 ∨ t.bpp = 3 ∨ t.bpp = 4)
    (hlen : (p : Int) + t.bpp ≤ t.data.length) :
    t.get_pixel x y =
      some (decode_pixel_bytes t.bpp
        (normalised t.endianness (field_at t.data p t.bpp.toNat))) := by
  unfold TextureData.get_pixel
  simp only [hp]
  rcases hb with h | h | h | h <;> rw [h] at hlen ⊢ <;>
    cases he : t.endianness <;>
    simp [fill_pixel_bytes, he, h, pixel_bytes_init, normalised, field_at, List.range_succ] <;>
    (have e2 : ((p : Int) + 2).toNat = p + 2 := by omega
     have e3 : ((p : Int) + 3).toNat = p + 3 := by omega
     try simp only [e2, e3]
     split_ifs <;> first | rfl | (exfalso; omega))

theorem toUnsigned_natCast (n : Nat) : toUnsigned (n : Int) = n := by
  simp [toUnsigned]

theorem read_buffer_length (f : IfStream) (buffer : List Nat) (count : Nat)
    (h : buffer.length = count) :
    (f.read buffer (count : Int)).2.length = count := by
  unfold IfStream.read
  dsimp only
  split_ifs <;> simp [List.length_take, List.length_drop] <;> omega

theorem copy_line_some (line_buffer : List Nat) (count : Nat) (data : List Nat) (dst : Nat)
    (h1 : count ≤ line_buffer.length) (h2 : dst + count ≤ data.length) :
    copy_line line_buffer (count : Int) data (dst : Int) =
      some (data.take dst ++ line_buffer.take count ++ data.drop (dst + count)) := by
  unfold copy_line
  rw [if_pos]
  · simp
  · refine ⟨by omega, by omega, by omega, by omega⟩

theorem copy_line_length (line_buffer : List Nat) (count : Nat) (data : List Nat) (dst : Nat)
    (h1 : count ≤ line_buffer.length) (h2 : dst + count ≤ data.length) :
    (data.take dst ++ line_buffer.take count ++ data.drop (dst + count)).length
      = data.length := by
  simp [List.length_take, List.length_drop]
  omega

/-- The row loop completes on every stream state when the row buffer has `get_line_size`
bytes and the rows still to visit fit in the raw buffer; it keeps the length of `data`. -/
theorem read_lines_some (t : TextureData) (P L : Nat)
    (hP : t.get_pixel_line_size = (P : Int)) (hL : t.get_line_size = (L : Int))
    (hPL : P ≤ L) :
    ∀ (n y : Nat) (f : IfStream) (lb data : List Nat),
      lb.length = L → (y + n) * P ≤ data.length →
      ∃ d, read_lines t n (y : Int) f lb data = some d ∧ d.length = data.length := by
  intro n
  induction n with
  | zero => intro y f lb data _ _; exact ⟨data, rfl, rfl⟩
  | succ n ih =>
    intro y f lb data hlb hd
    unfold read_lines
    by_cases he : f.eofbit = true
    · simp [he]
    · simp only [he, if_false, hP, hL]
      have hlen := read_buffer_length f lb L hlb
      have h1 : P ≤ (f.read lb (L : Int)).2.length := by omega
      have h2 : y * P + P ≤ data.length := by
        have : (y + (n + 1)) * P = y * P + P + n * P := by ring
        omega
      have hc := copy_line_some (f.read lb (L : Int)).2 P data (y * P) h1 h2
      have hcast : ((y : Int) * (P : Int)) = ((y * P : Nat) : Int) := by push_cast; ring
      rw [hcast, hc]
      simp only
      have hlen2 := copy_line_length (f.read lb (L : Int)).2 P data (y * P) h1 h2
      have hy : ((y : Int) + 1) = ((y + 1 : Nat) : Int) := by push_cast; ring
      rw [hy]
      obtain ⟨d, hd1, hd2⟩ := ih (y + 1) (f.read lb (L : Int)).1 (f.read lb (L : Int)).2
        (data.take (y * P) ++ (f.read lb (L : Int)).2.take P ++ data.drop (y * P + P))
        hlen (by rw [hlen2]; have : (y + 1 + n) * P = (y + (n + 1)) * P := by ring
                 omega)
      exact ⟨d, hd1, by rw [hd2, hlen2]⟩

theorem read_good (f : IfStream) (lb : List Nat) (L : Nat)
    (he : f.eofbit = false) (hf : f.failbit = false)
    (hpos : f.pos + L ≤ f.bytes.length) (hlb : lb.length = L) :
    f.read lb (L : Int) = ({ f with pos := f.pos + L }, (f.bytes.drop f.pos).take L) := by
  unfold IfStream.read
  have hlen : ((f.bytes.drop f.pos).take L).length = L := by
    simp [List.length_take, List.length_drop]; omega
  simp only [he, hf, Bool.false_eq_true, or_self, if_false, Int.toNat_ofNat, hlen,
    lt_irrefl]
  have : lb.drop L = [] := by simp [hlb]
  simp [this]

/-- On a file that holds the `n` rows still to read, the row loop replaces the rows
`y .. y + n - 1` of the raw buffer by the file rows. -/
theorem read_lines_full (t : TextureData) (P L : Nat)
    (hP : t.get_pixel_line_size = (P : Int)) (hL : t.get_line_size = (L : Int))
    (hPL : P ≤ L) :
    ∀ (n y : Nat) (f : IfStream) (lb data : List Nat),
      lb.length = L → f.eofbit = false → f.failbit = false →
      f.pos + n * L ≤ f.bytes.length → (y + n) * P ≤ data.length →
      read_lines t n (y : Int) f lb data =
        some (data.take (y * P) ++ file_rows f.bytes L P f.pos n
          ++ data.drop ((y + n) * P)) := by
  intro n
  induction n with
  | zero =>
    intro y f lb data _ _ _ _ _
    simp [read_lines, file_rows]
  | succ n ih =>
    intro y f lb data hlb he hf hpos hd
    have hn1 : (n + 1) * L = L + n * L := by ring
    have hn2 : (y + (n + 1)) * P = y * P + P + n * P := by ring
    have hn3 : (y + 1 + n) * P = y * P + P + n * P := by ring
    unfold read_lines
    simp only [he, Bool.false_eq_true, if_false, hP, hL]
    rw [read_good f lb L he hf (by omega) hlb]
    simp only
    have hrow : ((f.bytes.drop f.pos).take L).take P = (f.bytes.drop f.pos).take P := by
      rw [List.take_take, min_eq_left hPL]
    have hrowlen : ((f.bytes.drop f.pos).take P).length = P := by
      simp [List.length_take, List.length_drop]; omega
    have h1 : P ≤ ((f.bytes.drop f.pos).take L).length := by
      simp [List.length_take, List.length_drop]; omega
    have h2 : y * P + P ≤ data.length := by omega
    have hcast : ((y : Int) * (P : Int)) = ((y * P : Nat) : Int) := by push_cast; ring
    rw [hcast, copy_line_some _ P data (y * P) h1 h2]
    simp only
    have hy : ((y : Int) + 1) = ((y + 1 : Nat) : Int) := by push_cast; ring
    have hlen2 := copy_line_length ((f.bytes.drop f.pos).take L) P data (y * P) h1 h2
    rw [hy, ih (y + 1) { f with pos := f.pos + L } _ _
      (by simp [List.length_take, List.length_drop]; omega) he hf
      (by simp only; omega) (by rw [hlen2]; omega)]
    simp only [hrow, file_rows, hn2, hn3]
    congr 1
    have ht : (data.take (y * P)).length = y * P := by
      simp [List.length_take]; omega
    have e1 : (List.take (y * P) data ++ List.take P (List.drop f.pos f.bytes)
        ++ List.drop (y * P + P) data).take (y * P + P)
        = List.take (y * P) data ++ List.take P (List.drop f.pos f.bytes) := by
      rw [List.take_append_of_le_length (by simp [List.length_take, List.length_drop]; omega)]
      rw [List.take_of_length_le (by simp [List.length_take, List.length_drop]; omega)]
    have e2 : (List.take (y * P) data ++ List.take P (List.drop f.pos f.bytes)
        ++ List.drop (y * P + P) data).drop (y * P + P + n * P)
        = data.drop (y * P + P + n * P) := by
      rw [List.drop_append_eq_append_drop]
      simp only [List.length_append, ht, hrowlen]
      rw [List.drop_of_length_le (by simp [List.length_take, List.length_drop]; omega)]
      simp only [List.nil_append, List.drop_drop]
      congr 1
      omega
    have e3 : (y + 1) * P = y * P + P := by ring
    rw [e3, e1, e2]
    simp [List.append_assoc]

theorem file_rows_getElem (bytes : List Nat) (L P : Nat) (hPL : P ≤ L) :
    ∀ (n pos k i : Nat), k < n → i < P → pos + n * L ≤ bytes.length →
      (file_rows bytes L P pos n)[k * P + i]? = bytes[pos + k * L + i]? := by
  intro n
  induction n with
  | zero => intro pos k i hk; omega
  | succ n ih =>
    intro pos k i hk hi hlen
    have hn1 : (n + 1) * L = L + n * L := by ring
    have hfirst : ((bytes.drop pos).take P).length = P := by
      simp [List.length_take, List.length_drop]; omega
    simp only [file_rows]
    cases k with
    | zero =>
      rw [List.getElem?_append_left (by omega)]
      simp [List.getElem?_take, hi]
    | succ k =>
      have e1 : (k + 1) * P + i = P + (k * P + i) := by ring
      have e2 : pos + (k + 1) * L + i = pos + L + k * L + i := by ring
      rw [List.getElem?_append_right (by omega), hfirst, e1, Nat.add_sub_cancel_left,
        ih (pos + L) k i (by omega) hi (by omega), e2]

theorem setPixel_some (img : Image) (x y : Nat) (c : Color)
    (h : x + y * img.size_x < img.pixels.length) :
    img.setPixel x y c =
      some { img with pixels := img.pixels.set (x + y * img.size_x) c } := by
  simp [Image.setPixel, h]

/-- The inner pixel loop on row `y`, from column `x0` on: it completes when `get_pixel`
does on the row, writes the colours of the columns `x0 .. x0 + n - 1` and nothing else. -/
theorem set_row_spec (t : TextureData) (y C : Nat) (px : Nat → Color)
    (hpx : ∀ x : Nat, x < C → t.get_pixel (x : Int) (y : Int) = some (px x)) :
    ∀ (n x0 : Nat) (img : Image), x0 + n ≤ C → img.size_x = C →
      (y + 1) * C ≤ img.pixels.length →
      ∃ img', set_row t (y : Int) n (x0 : Int) img = some img' ∧
        img'.size_x = C ∧ img'.size_y = img.size_y ∧
        img'.pixels.length = img.pixels.length ∧
        (∀ x, x0 ≤ x → x < x0 + n → img'.pixels[x + y * C]? = some (px x)) ∧
        (∀ k, k < x0 + y * C ∨ x0 + n + y * C ≤ k → img'.pixels[k]? = img.pixels[k]?) := by
  intro n
  induction n with
  | zero =>
    intro x0 img _ hsx _
    exact ⟨img, rfl, hsx, rfl, rfl, fun x h1 h2 => by omega, fun k _ => rfl⟩
  | succ n ih =>
    intro x0 img hx hsx hlen
    have hyC : (y + 1) * C = y * C + C := by ring
    have hidx : x0 + y * img.size_x < img.pixels.length := by rw [hsx]; omega
    unfold set_row
    rw [hpx x0 (by omega)]
    simp only [toUnsigned_natCast]
    rw [setPixel_some img x0 y (px x0) hidx]
    simp only
    have hx1 : ((x0 : Int) + 1) = ((x0 + 1 : Nat) : Int) := by push_cast; ring
    rw [hx1]
    obtain ⟨img', h1, h2, h3, h4, h5, h6⟩ :=
      ih (x0 + 1) { img with pixels := img.pixels.set (x0 + y * img.size_x) (px x0) }
        (by omega) hsx (by simpa using hlen)
    refine ⟨img', h1, h2, h3, by simpa using h4, ?_, ?_⟩
    · intro x hx0 hxn
      by_cases hxe : x = x0
      · subst hxe
        rw [h6 (x + y * C) (by omega)]
        simp only [hsx]
        rw [List.getElem?_set, if_pos rfl, if_pos (by omega)]
      · exact h5 x (by omega) (by omega)
    · intro k hk
      rw [h6 k (by omega)]
      simp only [hsx]
      rw [List.getElem?_set_ne (by omega)]

/-- The outer pixel loop from row `y0` on: it completes when `get_pixel` does on the
grid, writes the colours of the rows `y0 .. y0 + n - 1` and nothing else. -/
theorem set_rows_spec (t : TextureData) (C R : Nat) (px : Nat → Nat → Color)
    (hC : t.columns = (C : Int))
    (hpx : ∀ x y : Nat, x < C → y < R →
      t.get_pixel (x : Int) (y : Int) = some (px x y)) :
    ∀ (n y0 : Nat) (img : Image), y0 + n ≤ R → img.size_x = C →
      R * C ≤ img.pixels.length →
      ∃ img', set_rows t n (y0 : Int) img = some img' ∧
        img'.size_x = C ∧ img'.size_y = img.size_y ∧
        img'.pixels.length = img.pixels.length ∧
        (∀ x y, x < C → y0 ≤ y → y < y0 + n → img'.pixels[x + y * C]? = some (px x y)) ∧
        (∀ k, k < y0 * C ∨ (y0 + n) * C ≤ k → img'.pixels[k]? = img.pixels[k]?) := by
  intro n
  induction n with
  | zero =>
    intro y0 img _ hsx _
    exact ⟨img, rfl, hsx, rfl, rfl, fun x y _ h1 h2 => by omega, fun k _ => rfl⟩
  | succ n ih =>
    intro y0 img hy hsx hlen
    have hrow : (y0 + 1) * C ≤ R * C := Nat.mul_le_mul_right C (by omega)
    have e1 : (y0 + 1) * C = y0 * C + C := by ring
    have e2 : (y0 + (n + 1)) * C = y0 * C + C + n * C := by ring
    have e3 : (y0 + 1 + n) * C = y0 * C + C + n * C := by ring
    unfold set_rows
    simp only [hC, Int.toNat_ofNat]
    obtain ⟨img1, a1, a2, a3, a4, a5, a6⟩ :=
      set_row_spec t y0 C (fun x => px x y0) (fun x hx => hpx x y0 hx (by omega))
        C 0 img (by omega) hsx (by omega)
    have a1' : set_row t (y0 : Int) C 0 img = some img1 := by simpa using a1
    rw [a1']
    simp only
    have hy1 : ((y0 : Int) + 1) = ((y0 + 1 : Nat) : Int) := by push_cast; ring
    rw [hy1]
    obtain ⟨img', h1, h2, h3, h4, h5, h6⟩ :=
      ih (y0 + 1) img1 (by omega) a2 (by omega)
    refine ⟨img', h1, h2, by rw [h3, a3], by rw [h4, a4], ?_, ?_⟩
    · intro x y hx hy0 hyn
      by_cases hye : y = y0
      · subst hye
        rw [h6 (x + y * C) (by omega)]
        exact a5 x (by omega) (by omega)
      · exact h5 x y hx (by omega) (by omega)
    · intro k hk
      rw [h6 k (by omega), a6 k (by omega)]

/-- The reorder loop completes when the field lies inside `data` and has at most 16
bytes. -/
theorem fill_pixel_bytes_some (t : TextureData) (p : Nat)
    (h16 : t.bpp ≤ 16) (hlen : (p : Int) + t.bpp ≤ t.data.length) :
    ∀ (n i : Nat) (pb : List Nat), ((i + n : Nat) : Int) = t.bpp →
      ∃ pb', fill_pixel_bytes t (p : Int) n (i : Int) pb = some pb' := by
  intro n
  induction n with
  | zero => intro i pb _; exact ⟨pb, rfl⟩
  | succ n ih =>
    intro i pb hin
    unfold fill_pixel_bytes
    push_cast at hin
    have hcond : 0 ≤ (p : Int) + i ∧ (p : Int) + i < t.data.length ∧
        0 ≤ (if t.endianness = Endianness.TV_LITTLE_ENDIAN then t.bpp - 1 - (i : Int)
          else (i : Int)) ∧
        (if t.endianness = Endianness.TV_LITTLE_ENDIAN then t.bpp - 1 - (i : Int)
          else (i : Int)) < 16 := by
      refine ⟨by omega, by omega, ?_, ?_⟩ <;> split_ifs <;> omega
    simp only [hcond, and_self, if_true]
    have hi : ((i : Int) + 1) = ((i + 1 : Nat) : Int) := by push_cast; ring
    rw [hi]
    exact ih (i + 1) _ (by push_cast; omega)

/-- The function `get_pixel` returns a colour when the field lies inside `data` and
`bpp` is between 0 and 16. -/
theorem get_pixel_some (t : TextureData) (x y : Int) (p : Nat)
    (hp : y * t.get_pixel_line_size + x * t.get_pixel_size = (p : Int))
    (h0 : 0 ≤ t.bpp) (h16 : t.bpp ≤ 16) (hlen : (p : Int) + t.bpp ≤ t.data.length) :
    ∃ c, t.get_pixel x y = some c := by
  unfold TextureData.get_pixel
  simp only [hp]
  obtain ⟨pb, hpb⟩ := fill_pixel_bytes_some t p h16 hlen t.bpp.toNat 0 pixel_bytes_init
    (by simp only [Nat.zero_add]; omega)
  simp only [Nat.cast_zero] at hpb
  rw [hpb]
  exact ⟨_, rfl⟩

/-- For `bpp` between 5 and 16 the `switch` of `get_pixel` takes its `default` branch:
the colour is the one of `sf::Color()`. -/
theorem get_pixel_default (t : TextureData) (x y : Int) (c : Color)
    (h5 : 5 ≤ t.bpp) (hc : t.get_pixel x y = some c) : c = Color.black := by
  unfold TextureData.get_pixel at hc
  simp only at hc
  split at hc
  · simp at hc
  · simp only [Option.some.injEq] at hc
    rw [← hc]
    unfold decode_pixel_bytes
    simp only [show t.bpp ≠ 1 by omega, show t.bpp ≠ 2 by omega, show t.bpp ≠ 3 by omega,
      show t.bpp ≠ 4 by omega, if_false]

theorem pixel_field_in_bounds (C R S x y b : Nat) (hx : x < C) (hy : y < R) (hb : b ≤ S) :
    y * (S * C) + x * S + b ≤ R * (S * C) := by
  have h1 : (x + 1) * S ≤ C * S := Nat.mul_le_mul_right S (by omega)
  have h2 : (y + 1) * (S * C) ≤ R * (S * C) := Nat.mul_le_mul_right (S * C) (by omega)
  have e1 : (x + 1) * S = x * S + S := by ring
  have e2 : (y + 1) * (S * C) = y * (S * C) + C * S := by ring
  omega

/-- What `update` does on a file that opens, for a layout given by natural numbers:
`C` columns, `R` rows, pixels of `S` bytes and `K` padding bytes per row, and `bpp`
between 1 and 16.  The call completes; the raw buffer is the result `d` of the row loop
and has `R * (S * C)` bytes; the image has `C * R` pixels and its pixel `(x, y)` is what
`get_pixel` returns on the new raw buffer. -/
theorem update_spec_gen (t : TextureData) (bytes : List Nat) (C R S K : Nat)
    (hb1 : 1 ≤ t.bpp) (hb16 : t.bpp ≤ 16)
    (hC : t.columns = (C : Int)) (hR : t.lines = (R : Int))
    (hS : t.bpp + t.pixel_byte_skip = (S : Int)) (hK : t.line_byte_skip = (K : Int))
    (hbS : t.bpp ≤ (S : Int)) :
    ∃ d img,
      read_lines t R 0 ((IfStream.open bytes).seekg t.offset)
        (List.replicate (S * C + K) 0x33)
        (t.data.take (R * (S * C)) ++ List.replicate (R * (S * C) - t.data.length) 0)
        = some d ∧
      d.length = R * (S * C) ∧
      t.update (some bytes) = some { t with data := d, image := img } ∧
      img.pixels.length = C * R ∧
      ∀ x y : Nat, x < C → y < R →
        ∃ c, img.getPixel x y = some c ∧
          ({ t with data := d, image := Image.create C R Color.Magenta } :
            TextureData).get_pixel (x : Int) (y : Int) = some c := by
  have hps : t.get_pixel_size = (S : Int) := by simp [TextureData.get_pixel_size, hS]
  have hP : t.get_pixel_line_size = ((S * C : Nat) : Int) := by
    simp [TextureData.get_pixel_line_size, hps, hC]
  have hL : t.get_line_size = ((S * C + K : Nat) : Int) := by
    simp [TextureData.get_line_size, hP, hK]
  have hb0 : t.bpp ≠ 0 := by omega
  have hd1 : (t.data.take (R * (S * C))
      ++ List.replicate (R * (S * C) - t.data.length) 0).length = R * (S * C) := by
    simp [List.length_take]; omega
  obtain ⟨d, hd, hdlen⟩ := read_lines_some t (S * C) (S * C + K) hP hL (by omega) R 0
    ((IfStream.open bytes).seekg t.offset) (List.replicate (S * C + K) 0x33)
    (t.data.take (R * (S * C)) ++ List.replicate (R * (S * C) - t.data.length) 0)
    (by simp) (by rw [hd1]; simp)
  rw [hd1] at hdlen
  simp only [Nat.cast_zero] at hd
  -- the pixels of the new raw buffer
  have hpx : ∀ x y : Nat, x < C → y < R →
      ∃ c, ({ t with data := d, image := Image.create C R Color.Magenta } :
        TextureData).get_pixel (x : Int) (y : Int) = some c := by
    intro x y hx hy
    obtain ⟨b, hbb⟩ := Int.eq_ofNat_of_zero_le (show (0 : Int) ≤ t.bpp by omega)
    have hbS' : b ≤ S := by omega
    have hbound := pixel_field_in_bounds C R S x y b hx hy hbS'
    exact get_pixel_some
      ({ t with data := d, image := Image.create C R Color.Magenta } : TextureData)
      (x : Int) (y : Int) (y * (S * C) + x * S)
      (by
        simp only [TextureData.get_pixel_line_size, TextureData.get_pixel_size, hS, hC]
        push_cast; ring)
      (by simp only; omega) hb16
      (by
        simp only [hdlen, hbb]
        exact_mod_cast hbound)
  have hpx' : ∀ x y : Nat, x < C → y < R →
      ({ t with data := d, image := Image.create C R Color.Magenta } :
        TextureData).get_pixel (x : Int) (y : Int) =
      some ((({ t with data := d, image := Image.create C R Color.Magenta } :
        TextureData).get_pixel (x : Int) (y : Int)).getD Color.black) := by
    intro x y hx hy
    obtain ⟨c, hc⟩ := hpx x y hx hy
    rw [hc]; rfl
  -- the pixel loops
  have himg : ∃ img,
      set_rows ({ t with data := d, image := Image.create C R Color.Magenta }) R 0
        (Image.create C R Color.Magenta) = some img ∧
      img.pixels.length = C * R ∧
      ∀ x y : Nat, x < C → y < R →
        ∃ c, img.getPixel x y = some c ∧
          ({ t with data := d, image := Image.create C R Color.Magenta } :
            TextureData).get_pixel (x : Int) (y : Int) = some c := by
    by_cases hz : C ≠ 0 ∧ R ≠ 0
    · obtain ⟨img, i1, i2, _, i4, i5, _⟩ :=
        set_rows_spec ({ t with data := d, image := Image.create C R Color.Magenta })
          C R _ hC hpx' R 0 (Image.create C R Color.Magenta) (by omega)
          (by simp [Image.create, hz]) (by simp [Image.create, hz, Nat.mul_comm])
      simp only [Nat.cast_zero] at i1
      refine ⟨img, i1, ?_, ?_⟩
      · rw [i4]; simp [Image.create, hz]
      · intro x y hx hy
        have h5 := i5 x y hx (by omega) (by omega)
        refine ⟨_, ?_, hpx' x y hx hy⟩
        simpa [Image.getPixel, i2] using h5
    · have hcreate : Image.create C R Color.Magenta = ⟨0, 0, []⟩ := by
        simp [Image.create, hz]
      have hCR : C = 0 ∨ R = 0 := by
        by_contra hne
        exact hz ⟨fun h => hne (Or.inl h), fun h => hne (Or.inr h)⟩
      have hrows : ∀ (n : Nat) (y : Int) (tt : TextureData), tt.columns = 0 →
          set_rows tt n y ⟨0, 0, []⟩ = some ⟨0, 0, []⟩ := by
        intro n
        induction n with
        | zero => intro y tt _; rfl
        | succ n ih =>
          intro y tt h0
          unfold set_rows
          simp [h0, set_row, ih (y + 1) tt h0]
      refine ⟨⟨0, 0, []⟩, ?_, ?_, ?_⟩
      · rw [hcreate]
        rcases hCR with h | h
        · subst h
          exact hrows R 0 _ (by simpa using hC)
        · subst h
          simp [set_rows]
      · rcases hCR with h | h <;> simp [h]
      · intro x y hx hy
        omega
  obtain ⟨img, hset, himglen, hget⟩ := himg
  refine ⟨d, img, hd, hdlen, ?_, himglen, hget⟩
  -- unfold `update`
  have hcount : t.lines * t.get_pixel_line_size = ((R * (S * C) : Nat) : Int) := by
    rw [hR, hP]; push_cast; ring
  have hRn : t.lines.toNat = R := by rw [hR]; simp
  have hCu : toUnsigned t.columns = C := by rw [hC]; exact toUnsigned_natCast C
  have hRu : toUnsigned t.lines = R := by rw [hR]; exact toUnsigned_natCast R
  unfold TextureData.update
  simp only [hb0, if_false, vector_resize, vector_fill, hcount, hL, hRn, hCu, hRu,
    Int.toNat_ofNat,
    show ¬ ((R * (S * C) : Nat) : Int) < 0 by omega,
    show ¬ ((S * C + K : Nat) : Int) < 0 by omega, hd, hset]

/-- The statement of `update_spec_gen` for `bpp` between 1 and 4, with the colour of a
pixel given by the decoding table. -/
theorem update_spec (t : TextureData) (bytes : List Nat) (C R S K : Nat)
    (hb : t.bpp = 1 ∨ t.bpp = 2 ∨ t.bpp = 3 ∨ t.bpp = 4)
    (hC : t.columns = (C : Int)) (hR : t.lines = (R : Int))
    (hS : t.bpp + t.pixel_byte_skip = (S : Int)) (hK : t.line_byte_skip = (K : Int))
    (hbS : t.bpp ≤ (S : Int)) :
    ∃ d img,
      read_lines t R 0 ((IfStream.open bytes).seekg t.offset)
        (List.replicate (S * C + K) 0x33)
        (t.data.take (R * (S * C)) ++ List.replicate (R * (S * C) - t.data.length) 0)
        = some d ∧
      d.length = R * (S * C) ∧
      t.update (some bytes) = some { t with data := d, image := img } ∧
      img.pixels.length = C * R ∧
      ∀ x y : Nat, x < C → y < R →
        img.getPixel x y = some (decode_pixel_bytes t.bpp
          (normalised t.endianness (field_at d (y * (S * C) + x * S) t.bpp.toNat))) := by
  obtain ⟨d, img, h1, h2, h3, h4, h5⟩ :=
    update_spec_gen t bytes C R S K (by omega) (by omega) hC hR hS hK hbS
  refine ⟨d, img, h1, h2, h3, h4, ?_⟩
  intro x y hx hy
  obtain ⟨c, hc1, hc2⟩ := h5 x y hx hy
  obtain ⟨b, hbb⟩ := Int.eq_ofNat_of_zero_le (show (0 : Int) ≤ t.bpp by omega)
  have hbS' : b ≤ S := by omega
  have hbound := pixel_field_in_bounds C R S x y b hx hy hbS'
  have hspec := get_pixel_spec
    ({ t with data := d, image := Image.create C R Color.Magenta } : TextureData)
    (x : Int) (y : Int) (y * (S * C) + x * S)
    (by
      simp only [TextureData.get_pixel_line_size, TextureData.get_pixel_size, hS, hC]
      push_cast; ring)
    hb
    (by
      simp only [h2, hbb]
      exact_mod_cast hbound)
  rw [hc1, ← hc2, hspec]

theorem seekg_open (bytes : List Nat) (O : Nat) :
    (IfStream.open bytes).seekg (O : Int) = ⟨bytes, O, false, false⟩ := by
  simp [IfStream.open, IfStream.seekg]

/-- On a file that holds the whole window, the row loop of `update` returns the file
rows, whatever the raw buffer and the row buffer held. -/
theorem read_lines_window (t : TextureData) (bytes : List Nat) (P L R O : Nat)
    (hP : t.get_pixel_line_size = (P : Int)) (hL : t.get_line_size = (L : Int))
    (hPL : P ≤ L) (hO : t.offset = (O : Int)) (lb data : List Nat)
    (hlb : lb.length = L) (hdata : data.length = R * P)
    (hfull : O + R * L ≤ bytes.length) :
    read_lines t R 0 ((IfStream.open bytes).seekg t.offset) lb data =
      some (file_rows bytes L P O R) := by
  have h := read_lines_full t P L hP hL hPL R 0 ⟨bytes, O, false, false⟩ lb data hlb rfl rfl
    (by simpa using hfull) (by rw [hdata]; simp)
  rw [hO, seekg_open]
  simp only [Nat.cast_zero] at h
  rw [h]
  simp [hdata]

/-- The bytes of a pixel field of the raw buffer built from a file that holds the whole
window are the file bytes of the field. -/
theorem field_at_file_rows (bytes : List Nat) (C R S K O x y b : Nat)
    (hx : x < C) (hy : y < R) (hb : b ≤ S)
    (hfull : O + R * (S * C + K) ≤ bytes.length) :
    field_at (file_rows bytes (S * C + K) (S * C) O R) (y * (S * C) + x * S) b =
      field_at bytes (O + y * (S * C + K) + x * S) b := by
  unfold field_at
  apply List.map_congr_left
  intro i hi
  have hi' : i < b := List.mem_range.mp hi
  have h1 : (x + 1) * S ≤ C * S := Nat.mul_le_mul_right S (by omega)
  have e1 : (x + 1) * S = x * S + S := by ring
  have e2 : C * S = S * C := Nat.mul_comm C S
  have h := file_rows_getElem bytes (S * C + K) (S * C) (by omega) R O y (x * S + i) hy
    (by omega) hfull
  simp only [List.getD_eq_getElem?_getD]
  have e3 : y * (S * C) + x * S + i = y * (S * C) + (x * S + i) := by ring
  have e4 : O + y * (S * C + K) + x * S + i = O + y * (S * C + K) + (x * S + i) := by ring
  rw [e3, e4, h]

/-- The function `update` on a file that holds the whole window: the raw buffer is made
of the file rows and the colour of a pixel is the decoding of the file bytes of its
field. -/
theorem update_full (t : TextureData) (bytes : List Nat) (C R S K O : Nat)
    (hb : t.bpp = 1 ∨ t.bpp = 2 ∨ t.bpp = 3 ∨ t.bpp = 4)
    (hC : t.columns = (C : Int)) (hR : t.lines = (R : Int))
    (hS : t.bpp + t.pixel_byte_skip = (S : Int)) (hK : t.line_byte_skip = (K : Int))
    (hbS : t.bpp ≤ (S : Int)) (hO : t.offset = (O : Int))
    (hfull : O + R * (S * C + K) ≤ bytes.length) :
    ∃ img,
      t.update (some bytes) =
        some { t with data := file_rows bytes (S * C + K) (S * C) O R, image := img } ∧
      img.pixels.length = C * R ∧
      ∀ x y : Nat, x < C → y < R →
        img.getPixel x y = some (decode_pixel_bytes t.bpp
          (normalised t.endianness
            (field_at bytes (O + y * (S * C + K) + x * S) t.bpp.toNat))) := by
  have hps : t.get_pixel_size = (S : Int) := by simp [TextureData.get_pixel_size, hS]
  have hP : t.get_pixel_line_size = ((S * C : Nat) : Int) := by
    simp [TextureData.get_pixel_line_size, hps, hC]
  have hL : t.get_line_size = ((S * C + K : Nat) : Int) := by
    simp [TextureData.get_line_size, hP, hK]
  obtain ⟨d, img, h1, h2, h3, h4, h5⟩ := update_spec t bytes C R S K hb hC hR hS hK hbS
  have hw := read_lines_window t bytes (S * C) (S * C + K) R O hP hL (by omega) hO
    (List.replicate (S * C + K) 0x33)
    (t.data.take (R * (S * C)) ++ List.replicate (R * (S * C) - t.data.length) 0)
    (by simp) (by simp [List.length_take]; omega) hfull
  rw [hw] at h1
  have hd : d = file_rows bytes (S * C + K) (S * C) O R := (Option.some.inj h1).symm
  subst hd
  refine ⟨img, h3, h4, ?_⟩
  intro x y hx hy
  obtain ⟨b, hbb⟩ := Int.eq_ofNat_of_zero_le (show (0 : Int) ≤ t.bpp by omega)
  have hbS' : b ≤ S := by omega
  rw [h5 x y hx hy, hbb, Int.toNat_ofNat,
    field_at_file_rows bytes C R S K O x y b hx hy hbS' hfull]

/-- A configuration with a positive `bpp` and non-negative columns, rows and paddings has
a layout given by natural numbers. -/
theorem layout_nat (t : TextureData) (hb1 : 1 ≤ t.bpp)
    (hc : 0 ≤ t.columns) (hr : 0 ≤ t.lines)
    (hk : 0 ≤ t.line_byte_skip) (hs : 0 ≤ t.pixel_byte_skip) :
    ∃ C R S K : Nat, t.columns = (C : Int) ∧ t.lines = (R : Int) ∧
      t.bpp + t.pixel_byte_skip = (S : Int) ∧ t.line_byte_skip = (K : Int) ∧
      t.bpp ≤ (S : Int) ∧ t.get_pixel_size = (S : Int) ∧
      t.get_pixel_line_size = ((S * C : Nat) : Int) ∧
      t.get_line_size = ((S * C + K : Nat) : Int) ∧
      t.get_frame_size = (((S * C + K) * R : Nat) : Int) := by
  obtain ⟨C, hC⟩ := Int.eq_ofNat_of_zero_le hc
  obtain ⟨R, hR⟩ := Int.eq_ofNat_of_zero_le hr
  obtain ⟨K, hK⟩ := Int.eq_ofNat_of_zero_le hk
  obtain ⟨S, hS⟩ := Int.eq_ofNat_of_zero_le (show (0 : Int) ≤ t.bpp + t.pixel_byte_skip by omega)
  refine ⟨C, R, S, K, hC, hR, hS, hK, by omega, ?_, ?_, ?_, ?_⟩
  · simp [TextureData.get_pixel_size, hS]
  · simp [TextureData.get_pixel_line_size, TextureData.get_pixel_size, hS, hC]
  · simp [TextureData.get_line_size, TextureData.get_pixel_line_size,
      TextureData.get_pixel_size, hS, hC, hK]
  · simp [TextureData.get_frame_size, TextureData.get_line_size,
      TextureData.get_pixel_line_size, TextureData.get_pixel_size, hS, hC, hK, hR]

theorem window_in_bounds (C R S K O x y b : Nat) (hx : x < C) (hy : y < R) (hb : b ≤ S) :
    O + y * (S * C + K) + x * S + b ≤ O + R * (S * C + K) := by
  have h1 : (x + 1) * S ≤ C * S := Nat.mul_le_mul_right S (by omega)
  have h2 : (y + 1) * (S * C + K) ≤ R * (S * C + K) :=
    Nat.mul_le_mul_right (S * C + K) (by omega)
  have e1 : (x + 1) * S = x * S + S := by ring
  have e2 : (y + 1) * (S * C + K) = y * (S * C + K) + C * S + K := by ring
  omega

theorem getElem?_of_lt_getD (l : List Nat) (i : Nat) (h : i < l.length) :
    l[i]? = some (l.getD i 0) := by
  simp [List.getD_eq_getElem?_getD, List.getElem?_eq_getElem h]

/-- The function `update` on a file that holds the whole window, as a function of the
layout and of the file rows only. -/
theorem update_window_eq (t : TextureData) (bytes : List Nat) (C R S K O : Nat)
    (hb0 : t.bpp ≠ 0)
    (hC : t.columns = (C : Int)) (hR : t.lines = (R : Int))
    (hS : t.bpp + t.pixel_byte_skip = (S : Int)) (hK : t.line_byte_skip = (K : Int))
    (hO : t.offset = (O : Int))
    (hfull : O + R * (S * C + K) ≤ bytes.length) :
    t.update (some bytes) =
      match set_rows
        ({ t with data := file_rows bytes (S * C + K) (S * C) O R,
                  image := Image.create C R Color.Magenta }) R 0
        (Image.create C R Color.Magenta) with
      | none => none
      | some img =>
        some { t with data := file_rows bytes (S * C + K) (S * C) O R, image := img } := by
  have hps : t.get_pixel_size = (S : Int) := by simp [TextureData.get_pixel_size, hS]
  have hP : t.get_pixel_line_size = ((S * C : Nat) : Int) := by
    simp [TextureData.get_pixel_line_size, hps, hC]
  have hL : t.get_line_size = ((S * C + K : Nat) : Int) := by
    simp [TextureData.get_line_size, hP, hK]
  have hw := read_lines_window t bytes (S * C) (S * C + K) R O hP hL (by omega) hO
    (List.replicate (S * C + K) 0x33)
    (t.data.take (R * (S * C)) ++ List.replicate (R * (S * C) - t.data.length) 0)
    (by simp) (by simp [List.length_take]; omega) hfull
  have hcount : t.lines * t.get_pixel_line_size = ((R * (S * C) : Nat) : Int) := by
    rw [hR, hP]; push_cast; ring
  have hRn : t.lines.toNat = R := by rw [hR]; simp
  have hCu : toUnsigned t.columns = C := by rw [hC]; exact toUnsigned_natCast C
  have hRu : toUnsigned t.lines = R := by rw [hR]; exact toUnsigned_natCast R
  unfold TextureData.update
  simp only [hb0, if_false, vector_resize, vector_fill, hcount, hL, hRn, hCu, hRu,
    Int.toNat_ofNat,
    show ¬ ((R * (S * C) : Nat) : Int) < 0 by omega,
    show ¬ ((S * C + K : Nat) : Int) < 0 by omega, hw]

/-- On a file that holds the whole window the result of `update` does not depend on the
raw buffer and the image held before the call. -/
theorem update_prior_irrelevant (t : TextureData) (bytes : List Nat)
    (d0 : List Nat) (im0 : Image)
    (hb : 1 ≤ t.bpp) (hc : 0 ≤ t.columns) (hr : 0 ≤ t.lines) (ho : 0 ≤ t.offset)
    (hk : 0 ≤ t.line_byte_skip) (hs : 0 ≤ t.pixel_byte_skip)
    (hfile : t.offset + t.get_frame_size ≤ bytes.length) :
    ({ t with data := d0, image := im0 } : TextureData).update (some bytes)
      = t.update (some bytes) := by
  obtain ⟨C, R, S, K, hC, hR, hS, hK, hbS, hps, hP, hL, hF⟩ :=
    layout_nat t hb hc hr hk hs
  obtain ⟨O, hO⟩ := Int.eq_ofNat_of_zero_le ho
  have hfull : O + R * (S * C + K) ≤ bytes.length := by
    rw [hO, hF] at hfile
    have : O + (S * C + K) * R ≤ bytes.length := by exact_mod_cast hfile
    rw [Nat.mul_comm R]; exact this
  have h1 := update_window_eq t bytes C R S K O (by omega) hC hR hS hK hO hfull
  have h2 := update_window_eq ({ t with data := d0, image := im0 }) bytes C R S K O
    (by simp only; omega) hC hR hS hK hO hfull
  exact h2.trans h1.symm

theorem read_lines_eof (t : TextureData) (n : Nat) (y : Int) (f : IfStream)
    (lb data : List Nat) (he : f.eofbit = true) :
    read_lines t n y f lb data = some data := by
  cases n with
  | zero => rfl
  | succ n => simp [read_lines, he]

/-- A read that asks for more bytes than the file still holds takes the rest of the
file, leaves the rest of the buffer as it was, and sets `eofbit`. -/
theorem read_short (f : IfStream) (lb : List Nat) (L : Nat)
    (he : f.eofbit = false) (hf : f.failbit = false) (hL0 : 0 < L)
    (hshort : f.bytes.length < f.pos + L) :
    (f.read lb (L : Int)).1.eofbit = true ∧
      (f.read lb (L : Int)).2
        = f.bytes.drop f.pos ++ lb.drop (f.bytes.length - f.pos) := by
  have htake : (f.bytes.drop f.pos).take L = f.bytes.drop f.pos :=
    List.take_of_length_le (by simp [List.length_drop]; omega)
  unfold IfStream.read
  simp only [he, hf, Bool.false_eq_true, or_self, if_false, Int.toNat_ofNat, htake,
    List.length_drop]
  rw [if_pos (by omega)]
  exact ⟨rfl, rfl⟩

/-- The elements of the raw buffer after a row copy: the copied row in the middle, the
rest as before. -/
theorem copy_line_getElem (data mid : List Nat) (a P : Nat)
    (hmid : mid.length = P) (ha : a + P ≤ data.length) :
    (∀ j, j < a → (data.take a ++ mid ++ data.drop (a + P))[j]? = data[j]?) ∧
    (∀ i, i < P → (data.take a ++ mid ++ data.drop (a + P))[a + i]? = mid[i]?) ∧
    (∀ j, a + P ≤ j → (data.take a ++ mid ++ data.drop (a + P))[j]? = data[j]?) := by
  have hta : (data.take a).length = a := by simp [List.length_take]; omega
  refine ⟨?_, ?_, ?_⟩
  · intro j hj
    rw [List.append_assoc, List.getElem?_append_left (by omega),
      List.getElem?_take_of_lt hj]
  · intro i hi
    rw [List.append_assoc, List.getElem?_append_right (by omega), hta,
      Nat.add_sub_cancel_left, List.getElem?_append_left (by omega)]
  · intro j hj
    rw [List.getElem?_append_right (by simp only [List.length_append]; omega)]
    simp only [List.length_append, hta, hmid, List.getElem?_drop]
    congr 1
    omega

/-- The row loop on a file that holds `k` complete rows from the get position and not
the next one, with at least `k + 1` rows to visit.  The loop completes; the rows before
the current row `y` and the rows after row `y + k` keep what the raw buffer held; the `k`
complete rows and the part of row `y + k` that the file holds are file bytes; and when
`k = 0` the rest of row `y` comes from the row buffer as it was. -/
theorem read_lines_short (t : TextureData) (P L : Nat)
    (hP : t.get_pixel_line_size = (P : Int)) (hL : t.get_line_size = (L : Int))
    (hPL : P ≤ L) (hL0 : 0 < L) :
    ∀ (k n y : Nat) (f : IfStream) (lb data : List Nat),
      lb.length = L → f.eofbit = false → f.failbit = false →
      (k = 0 ∨ f.pos + k * L ≤ f.bytes.length) →
      f.bytes.length < f.pos + (k + 1) * L →
      (y + k + n + 1) * P ≤ data.length →
      ∃ d, read_lines t (k + (n + 1)) (y : Int) f lb data = some d ∧
        d.length = data.length ∧
        (∀ j, j < y * P → d[j]? = data[j]?) ∧
        (∀ r i, r < k → i < P → d[(y + r) * P + i]? = f.bytes[f.pos + r * L + i]?) ∧
        (∀ i, i < P → f.pos + k * L + i < f.bytes.length →
          d[(y + k) * P + i]? = f.bytes[f.pos + k * L + i]?) ∧
        (k = 0 → ∀ i, i < P → f.bytes.length ≤ f.pos + i → d[y * P + i]? = lb[i]?) ∧
        (∀ j, (y + k + 1) * P ≤ j → d[j]? = data[j]?) := by
  intro k
  induction k with
  | zero =>
    intro n y f lb data hlb he hf _ hshort hd
    simp only [Nat.zero_add, Nat.one_mul, Nat.add_zero, Nat.zero_mul] at hshort hd ⊢
    obtain ⟨h1, h2⟩ := read_short f lb L he hf hL0 hshort
    have e1 : (y + n + 1) * P = y * P + P + n * P := by ring
    have e2 : (y + 1) * P = y * P + P := by ring
    have hlen : P ≤ (f.bytes.drop f.pos ++ lb.drop (f.bytes.length - f.pos)).length := by
      simp only [List.length_append, List.length_drop]; omega
    have hmid : ((f.bytes.drop f.pos ++ lb.drop (f.bytes.length - f.pos)).take P).length
        = P := by
      rw [List.length_take]; omega
    have hc := copy_line_some (f.bytes.drop f.pos ++ lb.drop (f.bytes.length - f.pos)) P
      data (y * P) hlen (by omega)
    have hcast : ((y : Int) * (P : Int)) = ((y * P : Nat) : Int) := by push_cast; ring
    obtain ⟨g1, g2, g3⟩ := copy_line_getElem data
      ((f.bytes.drop f.pos ++ lb.drop (f.bytes.length - f.pos)).take P) (y * P) P hmid
      (by omega)
    refine ⟨_, ?_, ?_, g1, ?_, ?_, ?_, ?_⟩
    · unfold read_lines
      simp only [he, Bool.false_eq_true, if_false, hP, hL, h2]
      rw [hcast, hc]
      simp only
      rw [read_lines_eof t n _ _ _ _ h1]
    · exact copy_line_length _ P data (y * P) hlen (by omega)
    · intro r i hr; omega
    · intro i hi hlt
      rw [g2 i hi, List.getElem?_take_of_lt hi,
        List.getElem?_append_left (by simp only [List.length_drop]; omega),
        List.getElem?_drop]
    · intro _ i hi hge
      rw [g2 i hi, List.getElem?_take_of_lt hi,
        List.getElem?_append_right (by simp only [List.length_drop]; omega),
        List.getElem?_drop]
      simp only [List.length_drop]
      congr 1
      omega
    · intro j hj
      exact g3 j (by omega)
  | succ k ih =>
    intro n y f lb data hlb he hf hfull hshort hd
    have hfull' : f.pos + (k + 1) * L ≤ f.bytes.length := by
      rcases hfull with h | h
      · omega
      · exact h
    have e0 : (k + 1) * L = L + k * L := by ring
    have e0' : (k + 1 + 1) * L = L + (k + 1) * L := by ring
    have e1 : (y + (k + 1) + n + 1) * P = y * P + P + (k + n + 1) * P := by ring
    have e2 : (y + 1 + k + n + 1) * P = y * P + P + (k + n + 1) * P := by ring
    have e3 : (y + 1) * P = y * P + P := by ring
    have hgood := read_good f lb L he hf (by omega) hlb
    have hrowL : ((f.bytes.drop f.pos).take L).length = L := by
      simp [List.length_take, List.length_drop]; omega
    have hmid : (((f.bytes.drop f.pos).take L).take P).length = P := by
      rw [List.length_take]; omega
    have hc := copy_line_some ((f.bytes.drop f.pos).take L) P data (y * P) (by omega)
      (by omega)
    have hclen := copy_line_length ((f.bytes.drop f.pos).take L) P data (y * P) (by omega)
      (by omega)
    have hcast : ((y : Int) * (P : Int)) = ((y * P : Nat) : Int) := by push_cast; ring
    have hy : ((y : Int) + 1) = ((y + 1 : Nat) : Int) := by push_cast; ring
    obtain ⟨g1, g2, g3⟩ := copy_line_getElem data (((f.bytes.drop f.pos).take L).take P)
      (y * P) P hmid (by omega)
    obtain ⟨d, d1, d2, d3, d4, d5, _, d7⟩ := ih n (y + 1) { f with pos := f.pos + L }
      ((f.bytes.drop f.pos).take L)
      (data.take (y * P) ++ ((f.bytes.drop f.pos).take L).take P ++ data.drop (y * P + P))
      hrowL he hf (Or.inr (by simp only; omega)) (by simp only; omega)
      (by rw [hclen]; omega)
    simp only at d4 d5
    refine ⟨d, ?_, by rw [d2, hclen], ?_, ?_, ?_, ?_, ?_⟩
    · have en : k + 1 + (n + 1) = (k + (n + 1)) + 1 := by omega
      rw [en]
      unfold read_lines
      simp only [he, Bool.false_eq_true, if_false, hP, hL, hgood]
      rw [hcast, hc]
      simp only
      rw [hy]
      simp only [he] at d1
      exact d1
    · intro j hj
      rw [d3 j (by omega), g1 j hj]
    · intro r i hr hi
      cases r with
      | zero =>
        simp only [Nat.add_zero, Nat.zero_mul]
        rw [d3 (y * P + i) (by omega), g2 i hi, List.getElem?_take_of_lt hi,
          List.getElem?_take_of_lt (by omega), List.getElem?_drop]
      | succ r =>
        have := d4 r i (by omega) hi
        have ea : (y + (r + 1)) * P + i = (y + 1 + r) * P + i := by ring
        have eb : f.pos + (r + 1) * L + i = f.pos + L + r * L + i := by ring
        rw [ea, eb]
        exact this
    · intro i hi hlt
      have ea : (y + (k + 1)) * P + i = (y + 1 + k) * P + i := by ring
      have eb : f.pos + (k + 1) * L + i = f.pos + L + k * L + i := by ring
      rw [ea, eb]
      exact d5 i hi (by omega)
    · intro h; omega
    · intro j hj
      have ea : (y + (k + 1) + 1) * P = (y + 1 + k + 1) * P := by ring
      have eb : (y + 1 + k + 1) * P = y * P + P + (k + 1) * P := by ring
      rw [d7 j (by omega), g3 j (by omega)]

theorem resized_getElem (data : List Nat) (N k : Nat) (hk : k < N) :
    (data.take N ++ List.replicate (N - data.length) 0)[k]? = some (data.getD k 0) := by
  by_cases h : k < data.length
  · rw [List.getElem?_append_left (by simp [List.length_take]; omega),
      List.getElem?_take_of_lt hk]
    exact getElem?_of_lt_getD data k h
  · rw [List.getElem?_append_right (by simp [List.length_take]; omega)]
    simp only [List.length_take, List.getD_eq_getElem?_getD]
    rw [List.getElem?_replicate, if_pos (by omega),
      List.getElem?_eq_none (by omega)]
    rfl

theorem field_at_sentinel (d : List Nat) (p b : Nat)
    (h : ∀ i, i < b → d[p + i]? = some 0x33) :
    field_at d p b = List.replicate b 0x33 := by
  unfold field_at
  apply List.ext_getElem?
  intro i
  by_cases hi : i < b
  · simp [List.getElem?_map, List.getElem?_range hi, h i hi, List.getElem?_replicate, hi]
  · simp [List.getElem?_replicate, hi, Nat.le_of_not_lt hi]

section ByteFacts

set_option maxRecDepth 100000

theorem red_channel_bits : ∀ b : Nat, b < 256 →
    (((b &&& 0xF8) >>> 3) <<< 3) % 256 = ((b >>> 3) &&& 31) <<< 3 ∧
    (((b >>> 3) &&& 31) <<< 3) % 8 = 0 ∧ ((b >>> 3) &&& 31) <<< 3 ≤ 248 := by
  decide

theorem blue_channel_bits : ∀ b : Nat, b < 256 →
    (((b &&& 0x3E) >>> 1) <<< 3) % 256 = ((b >>> 1) &&& 31) <<< 3 ∧
    (((b >>> 1) &&& 31) <<< 3) % 8 = 0 ∧ ((b >>> 1) &&& 31) <<< 3 ≤ 248 := by
  decide

theorem byte_low3_high2 : ∀ b : Nat, b < 256 →
    b &&& 0x07 < 8 ∧ (b &&& 0xC0) >>> 6 = b >>> 6 ∧ b >>> 6 < 4 := by
  decide

theorem green_channel_bits : ∀ u : Nat, u < 8 → ∀ w : Nat, w < 4 →
    (((u <<< 2) ||| w) <<< 3) % 256 = ((u <<< 2) ||| w) <<< 3 ∧
    (((u <<< 2) ||| w) <<< 3) % 8 = 0 ∧ ((u <<< 2) ||| w) <<< 3 ≤ 248 := by
  decide

end ByteFacts

/-- The `case 2` branch of the `switch` on two bytes: the three 5-bit fields, each
shifted left by 3; the half-brightness branch is never taken. -/
theorem decode_packed16 (b0 b1 : Nat) (rest : List Nat) (h0 : b0 < 256) (h1 : b1 < 256) :
    decode_pixel_bytes 2 (b0 :: b1 :: rest) =
      ⟨((b0 >>> 3) &&& 31) <<< 3, (((b0 &&& 7) <<< 2) ||| (b1 >>> 6)) <<< 3,
        ((b1 >>> 1) &&& 31) <<< 3, 255⟩ := by
  obtain ⟨r1, _, _⟩ := red_channel_bits b0 h0
  obtain ⟨bl1, _, _⟩ := blue_channel_bits b1 h1
  obtain ⟨u1, _, _⟩ := byte_low3_high2 b0 h0
  obtain ⟨_, w1, w2⟩ := byte_low3_high2 b1 h1
  obtain ⟨g1, _, _⟩ := green_channel_bits (b0 &&& 7) u1 (b1 >>> 6) w2
  simp only [decode_pixel_bytes, List.getD_cons_zero, List.getD_cons_succ]
  simp only [Nat.and_zero, ne_eq, not_true_eq_false, if_false]
  simp only [show (2 : Int) ≠ 1 by decide, if_false, if_true, r1, bl1, w1, g1]

theorem field_at_append (pre field post : List Nat) :
    field_at (pre ++ field ++ post) pre.length field.length = field := by
  unfold field_at
  apply List.ext_getElem?
  intro i
  by_cases hi : i < field.length
  · simp [List.getElem?_map, List.getElem?_range hi, List.getElem?_append_right,
      List.getElem?_append_left hi, List.append_assoc, List.getElem?_eq_getElem hi]
  · simp [List.getElem?_eq_none (Nat.le_of_not_lt hi), Nat.le_of_not_lt hi]

/-- C6. When `bpp = 0`, whatever the file, and when the file cannot be opened, `update`
returns the state it was given: raw buffer and pixel grid are unchanged.  On the initial
state, whose raw buffer and grid are empty, it therefore returns the empty frame. -/
theorem C6_update_noop (t : TextureData) (file : Option (List Nat))
    (h : t.bpp = 0 ∨ file = none) :
    t.update file = some t ∧
      TextureData.initial.update file = some TextureData.initial ∧
      TextureData.initial.data = [] ∧ TextureData.initial.image.pixels = [] := by
  refine ⟨?_, ?_, rfl, rfl⟩
  · rcases h with h | h
    · simp [TextureData.update, h]
    · subst h
      unfold TextureData.update
      split_ifs <;> rfl
  · simp [TextureData.update, TextureData.initial]

/-- C6, witness: with `bpp = 0` a state that holds a one-pixel frame is returned as it
is, on a file that opens. -/
theorem C6_update_noop_witness :
    ((mkConfig 2 2 0 0 0 0 Endianness.TV_LITTLE_ENDIAN).withFrame [7]
        ⟨1, 1, [⟨7, 7, 7, 255⟩]⟩).update (some [1, 2, 3, 4]) =
      some ((mkConfig 2 2 0 0 0 0 Endianness.TV_LITTLE_ENDIAN).withFrame [7]
        ⟨1, 1, [⟨7, 7, 7, 255⟩]⟩) :=
  (C6_update_noop
    ((mkConfig 2 2 0 0 0 0 Endianness.TV_LITTLE_ENDIAN).withFrame [7]
      ⟨1, 1, [⟨7, 7, 7, 255⟩]⟩) (some [1, 2, 3, 4]) (Or.inl (by decide))).1

/-- C2. With `bpp = 2`, for a pixel field of two bytes `f0`, `f1` of the raw buffer and
`b0`, `b1` the two bytes after byte-order normalisation, `get_pixel` returns
`R = ((b0 >> 3) & 31) << 3`, `G = (((b0 & 7) << 2) | (b1 >> 6)) << 3`,
`B = ((b1 >> 1) & 31) << 3` and `A = 255`; each of `R`, `G`, `B` is a multiple of 8 and
at most 248.  The half-brightness branch of the source never changes the result. -/
theorem C2_packed16_colour (t : TextureData) (x y : Int) (p f0 f1 b0 b1 : Nat)
    (hb : t.bpp = 2)
    (hp : y * t.get_pixel_line_size + x * t.get_pixel_size = (p : Int))
    (h0 : t.data[p]? = some f0) (h1 : t.data[p + 1]? = some f1)
    (hf0 : f0 < 256) (hf1 : f1 < 256)
    (hn : (b0, b1) =
      if t.endianness = Endianness.TV_LITTLE_ENDIAN then (f1, f0) else (f0, f1)) :
    ∃ c, t.get_pixel x y = some c ∧
      c.r = ((b0 >>> 3) &&& 31) <<< 3 ∧
      c.g = (((b0 &&& 7) <<< 2) ||| (b1 >>> 6)) <<< 3 ∧
      c.b = ((b1 >>> 1) &&& 31) <<< 3 ∧
      c.a = 255 ∧
      c.r % 8 = 0 ∧ c.r ≤ 248 ∧ c.g % 8 = 0 ∧ c.g ≤ 248 ∧ c.b % 8 = 0 ∧ c.b ≤ 248 := by
  have hlen : p + 1 < t.data.length := by
    by_contra hc
    rw [List.getElem?_eq_none (by omega)] at h1
    exact Option.noConfusion h1
  have hspec := get_pixel_spec t x y p hp (Or.inr (Or.inl hb)) (by rw [hb]; omega)
  have hfield : field_at t.data p t.bpp.toNat = [f0, f1] := by
    rw [hb]
    simp [field_at, List.range_succ, h0, h1]
  have hb0 : b0 < 256 ∧ b1 < 256 := by
    split_ifs at hn <;> simp only [Prod.mk.injEq] at hn <;> omega
  have hnorm : normalised t.endianness [f0, f1] =
      b0 :: b1 :: List.replicate 14 0 := by
    unfold normalised
    split_ifs at hn ⊢ <;> simp only [Prod.mk.injEq] at hn <;>
      simp [hn.1, hn.2]
  rw [hfield, hnorm, hb, decode_packed16 b0 b1 _ hb0.1 hb0.2] at hspec
  obtain ⟨_, r2, r3⟩ := red_channel_bits b0 hb0.1
  obtain ⟨_, bl2, bl3⟩ := blue_channel_bits b1 hb0.2
  obtain ⟨u1, _, _⟩ := byte_low3_high2 b0 hb0.1
  obtain ⟨_, _, w2⟩ := byte_low3_high2 b1 hb0.2
  obtain ⟨_, g2, g3⟩ := green_channel_bits (b0 &&& 7) u1 (b1 >>> 6) w2
  exact ⟨_, hspec, rfl, rfl, rfl, rfl, r2, r3, g2, g3, bl2, bl3⟩

/-- C2, witness: the field `[0xF8, 0x00]` in big-endian order is pure red,
`(248, 0, 0, 255)`. -/
theorem C2_packed16_colour_witness :
    ∃ c, ((mkConfig 1 1 0 2 0 0 Endianness.TV_BIG_ENDIAN).withFrame [0xF8, 0x00]
        Image.empty).get_pixel 0 0 = some c ∧
      c.r = 248 ∧ c.g = 0 ∧ c.b = 0 ∧ c.a = 255 := by
  obtain ⟨c, h1, hr, hg, hb, ha, _⟩ :=
    C2_packed16_colour
      ((mkConfig 1 1 0 2 0 0 Endianness.TV_BIG_ENDIAN).withFrame [0xF8, 0x00] Image.empty)
      0 0 0 0xF8 0x00 0xF8 0x00 (by decide) (by decide) (by decide) (by decide)
      (by decide) (by decide) (by decide)
  exact ⟨c, h1, hr, hg, hb, ha⟩

/-- C3. For `bpp = n` in 1..4 and an `n`-byte pixel field, `get_pixel` under
little-endian order returns the colour that `get_pixel` under big-endian order returns
on the field with its `n` bytes reversed, and both return a colour.  For `bpp = 2` the
raw bytes `[0xF8, 0x00]` decode to different colours under the two orders. -/
theorem C3_little_endian_is_big_endian_on_reversed (t : TextureData) (x y : Int)
    (pre field post : List Nat)
    (hb : t.bpp = 1 ∨ t.bpp = 2 ∨ t.bpp = 3 ∨ t.bpp = 4)
    (hlen : (field.length : Int) = t.bpp)
    (hpos : y * t.get_pixel_line_size + x * t.get_pixel_size = (pre.length : Int)) :
    (({ t with endianness := Endianness.TV_LITTLE_ENDIAN,
               data := pre ++ field ++ post } : TextureData).get_pixel x y
      = ({ t with endianness := Endianness.TV_BIG_ENDIAN,
                  data := pre ++ field.reverse ++ post } : TextureData).get_pixel x y) ∧
    (∃ c, ({ t with endianness := Endianness.TV_LITTLE_ENDIAN,
                    data := pre ++ field ++ post } : TextureData).get_pixel x y
      = some c) ∧
    (((mkConfig 1 1 0 2 0 0 Endianness.TV_LITTLE_ENDIAN).withFrame [0xF8, 0x00]
          Image.empty).get_pixel 0 0
      ≠ ((mkConfig 1 1 0 2 0 0 Endianness.TV_BIG_ENDIAN).withFrame [0xF8, 0x00]
          Image.empty).get_pixel 0 0) := by
  have hn : t.bpp.toNat = field.length := by omega
  have h1 := get_pixel_spec
    ({ t with endianness := Endianness.TV_LITTLE_ENDIAN, data := pre ++ field ++ post })
    x y pre.length hpos hb
    (by simp only [List.length_append]; push_cast; omega)
  have h2 := get_pixel_spec
    ({ t with endianness := Endianness.TV_BIG_ENDIAN,
              data := pre ++ field.reverse ++ post })
    x y pre.length hpos hb
    (by simp only [List.length_append, List.length_reverse]; push_cast; omega)
  simp only [hn] at h1 h2
  rw [field_at_append] at h1
  have hrev := field_at_append pre field.reverse post
  rw [List.length_reverse] at hrev
  rw [hrev] at h2
  refine ⟨?_, ⟨_, h1⟩, by decide⟩
  rw [h1, h2]
  simp [normalised]

/-- C3, witness: the field `[0xF8, 0x00]` under little-endian order decodes as the field
`[0x00, 0xF8]` under big-endian order. -/
theorem C3_little_endian_is_big_endian_on_reversed_witness :
    ((mkConfig 1 1 0 2 0 0 Endianness.TV_LITTLE_ENDIAN).withFrame [0xF8, 0x00]
        Image.empty).get_pixel 0 0
      = ((mkConfig 1 1 0 2 0 0 Endianness.TV_BIG_ENDIAN).withFrame [0x00, 0xF8]
        Image.empty).get_pixel 0 0 :=
  (C3_little_endian_is_big_endian_on_reversed
    (mkConfig 1 1 0 2 0 0 Endianness.TV_LITTLE_ENDIAN) 0 0 [] [0xF8, 0x00] []
    (by decide) (by decide) (by decide)).1

end TextureViewer
